import Mathlib

/-!
# Verification of `irreps` (src/notebooks/irreps.ipynb)

The notebook computes the matrices `J1, J2, J3` of the spin-`j` irreducible
representation of so(3) with sympy, by symbolically solving the column
equations `prefactor * G_i * e_k + rhs_k = 0` and reassembling the solved
entries into dense matrices.

The sympy arithmetic is exact symbolic arithmetic over rationals, square
roots of rationals and the imaginary unit (the float ladder coefficients are
normalised back to exact radicals by `sp.nsimplify` inside
`form_matrix_irrep_so3`).  We embed that arithmetic as the computable
commutative ring `K = ⊕_r ℚ(i)·√r` (`r` squarefree): a `K` value is a list of
`(r, a)` pairs, sorted strictly by the radicand `r`, with nonzero Gaussian
rational coefficients `a`.  All operations preserve this normal form, so
equality of computed values is plain list equality and everything is
decidable.
-/

/-- Gaussian rationals `ℚ(i)`: the coefficient field of the sympy
expressions appearing in the notebook (rationals and the imaginary unit). -/
structure GQ where
  re : ℚ
  im : ℚ
deriving DecidableEq, Repr

def GQ.zero : GQ := ⟨0, 0⟩

def GQ.one : GQ := ⟨1, 0⟩

/-- The imaginary unit `I = sp.I` / numpy `1j`. -/
def GQ.I : GQ := ⟨0, 1⟩

def GQ.ofQ (q : ℚ) : GQ := ⟨q, 0⟩

def GQ.add (a b : GQ) : GQ := ⟨a.re + b.re, a.im + b.im⟩

def GQ.neg (a : GQ) : GQ := ⟨-a.re, -a.im⟩

def GQ.mul (a b : GQ) : GQ := ⟨a.re * b.re - a.im * b.im, a.re * b.im + a.im * b.re⟩

/-- Complex conjugation on `ℚ(i)`. -/
def GQ.conj (a : GQ) : GQ := ⟨a.re, -a.im⟩

/-- Field inverse in `ℚ(i)` (used only to divide by the nonzero prefactors
`2` and `2i` when solving a column equation). -/
def GQ.inv (a : GQ) : GQ :=
  let n : ℚ := a.re * a.re + a.im * a.im
  ⟨a.re / n, -a.im / n⟩

/-- Exact numbers `⊕_r ℚ(i)·√r`: sorted list of (squarefree radicand,
nonzero coefficient) pairs.  `[]` is `0`; a rational `q` is `[(1, q)]`. -/
abbrev K := List (ℕ × GQ)

def kZero : K := []

def kOfG (g : GQ) : K := if g = GQ.zero then [] else [(1, g)]

def kOfQ (q : ℚ) : K := kOfG (GQ.ofQ q)

def kI : K := kOfG GQ.I

/-- Insert one radical term into a normalised `K` value, merging coefficients
on equal radicands and dropping terms that cancel to zero. -/
def insTerm (r : ℕ) (a : GQ) : K → K
  | [] => [(r, a)]
  | (s, b) :: y =>
    if r < s then (r, a) :: (s, b) :: y
    else if s < r then (s, b) :: insTerm r a y
    else
      let c := GQ.add a b
      if c = GQ.zero then y else (r, c) :: y

def addK (x y : K) : K := x.foldr (fun p acc => insTerm p.1 p.2 acc) y

def negK (x : K) : K := x.map (fun p => (p.1, GQ.neg p.2))

def subK (x y : K) : K := addK x (negK y)

/-- Product of two radical terms: `a√r · b√s = (a·b·g)·√(rs/g²)` where
`g = gcd r s`; for squarefree `r, s` the new radicand `(r/g)(s/g)` is again
squarefree. -/
def mulTermK (r : ℕ) (a : GQ) (s : ℕ) (b : GQ) : K :=
  if GQ.mul (GQ.mul a b) (GQ.ofQ ((Nat.gcd r s : ℕ) : ℚ)) = GQ.zero then []
  else [((r / Nat.gcd r s) * (s / Nat.gcd r s),
    GQ.mul (GQ.mul a b) (GQ.ofQ ((Nat.gcd r s : ℕ) : ℚ)))]

def mulK (x y : K) : K :=
  x.foldr (fun p acc => y.foldr (fun q acc2 => addK (mulTermK p.1 p.2 q.1 q.2) acc2) acc) []

/-- Complex conjugation on `K` (the radicands are nonnegative reals, so
conjugation acts on the Gaussian coefficients only). -/
def conjK (x : K) : K := x.map (fun p => (p.1, GQ.conj p.2))

/-- Largest `k` with `k² ∣ s`, together with the squarefree remainder:
`extractSq s = (k, r)` with `s = k² · r`. -/
def extractSq (s : ℕ) : ℕ × ℕ :=
  let k := (((List.range (s.sqrt + 1)).reverse).find?
      (fun k => k != 0 && s % (k * k) == 0)).getD 1
  (k, s / (k * k))

/-- Exact square root of a rational, as produced by sympy for the ladder
coefficients `(j(j+1) - m(m±1))**(1/2)` after `nsimplify`:
`sqrt(n/d) = (k/d)·√r` with `n·d = k²·r`, `r` squarefree; the square root of
a negative rational is `i` times the square root of its absolute value
(numpy computes with complex dtype, so a negative radicand yields a
purely imaginary principal square root, not an error). -/
def sqrtQ (q : ℚ) : K :=
  if q = 0 then []
  else if 0 < q then
    let p := extractSq (q.num.toNat * q.den)
    [(p.2, ⟨(p.1 : ℚ) / (q.den : ℚ), 0⟩)]
  else
    let p := extractSq ((-q.num).toNat * q.den)
    [(p.2, ⟨0, (p.1 : ℚ) / (q.den : ℚ)⟩)]

/-! ## Vectors and matrices (sympy `Matrix` as list of rows / column list) -/

abbrev Vec := List K

abbrev Mat := List (List K)

/-- `sp.Matrix(np.zeros(D))`, the `null_ket`. -/
def zeroVec (D : ℕ) : Vec := List.replicate D kZero

def smulVec (c : K) (v : Vec) : Vec := v.map (mulK c)

def negVec (v : Vec) : Vec := v.map negK

def addVec (u v : Vec) : Vec := List.zipWith addK u v

def dotK (u v : Vec) : K := (List.zipWith mulK u v).foldr addK kZero

def transposeM (A : Mat) : Mat :=
  (List.range (A.headD []).length).map (fun c => A.map (fun row => row.getD c kZero))

def matMul (A B : Mat) : Mat :=
  A.map (fun row => (transposeM B).map (fun col => dotK row col))

def matSub (A B : Mat) : Mat := List.zipWith (List.zipWith subK) A B

def matSmul (c : K) (A : Mat) : Mat := A.map (fun row => row.map (mulK c))

def conjTransposeM (A : Mat) : Mat := (transposeM A).map (fun row => row.map conjK)

/-- `[A, B] = A·B - B·A`. -/
def commutatorM (A B : Mat) : Mat := matSub (matMul A B) (matMul B A)

/-- `sp.Matrix(np.diag(l))`. -/
def diagM (l : List K) : Mat :=
  (List.range l.length).map (fun r =>
    (List.range l.length).map (fun c => if r = c then l.getD r kZero else kZero))

/-! ## Python-level helpers: list pops, dict merge, `sorted`, `int()`, `np.arange`, indexing -/

/-- `n` successive `list.pop(0)` calls: the popped prefix and the remainder,
or `none` when the list runs out (Python `IndexError`). -/
def popN (n : ℕ) (l : List α) : Option (List α × List α) :=
  match n, l with
  | 0, l => some ([], l)
  | _ + 1, [] => none
  | n + 1, a :: l => (popN n l).map (fun p => (a :: p.1, p.2))

/-- The row loop of `initialize_generators`: build `rows` rows of `D`
entries each by popping from the front of the list. -/
def buildRows (D : ℕ) : ℕ → List α → Option (List (List α) × List α)
  | 0, l => some ([], l)
  | r + 1, l => do
    let row ← popN D l
    let rest ← buildRows D r row.2
    pure (row.1 :: rest.1, rest.2)

/-- Python dict insertion: overwrite the value in place if the key exists,
otherwise append. -/
def dictInsert (d : List (ℕ × K)) (kv : ℕ × K) : List (ℕ × K) :=
  match d with
  | [] => [kv]
  | p :: rest => if p.1 = kv.1 then (p.1, kv.2) :: rest else p :: dictInsert rest kv

/-- `{key: value for d in sols for key, value in d.items()}`: later
occurrences of a key silently overwrite earlier ones. -/
def mergeDicts (sols : List (List (ℕ × K))) : List (ℕ × K) :=
  sols.foldl (fun acc d => d.foldl dictInsert acc) []

def insertByKey (p : ℕ × K) : List (ℕ × K) → List (ℕ × K)
  | [] => [p]
  | q :: rest => if p.1 < q.1 then p :: q :: rest else q :: insertByKey p rest

/-- `sorted(merged_dict.items(), key=lambda item: int(str(item[0])[1:]))`:
sort by the numeric index of the symbol (symbols are modelled by their
index `n`, standing for sympy's `x{n}`). -/
def sortByKey (l : List (ℕ × K)) : List (ℕ × K) := l.foldl (fun acc p => insertByKey p acc) []

/-- Split a flat value list into rows of `D`, as `sp.Matrix(D, D, vals)`
lays values out row-major (structural recursion on a fuel bound so the
kernel can evaluate it; the fuel `l.length` always suffices). -/
def chunkAux (D : ℕ) : ℕ → List K → List (List K)
  | _, [] => []
  | 0, _ :: _ => []
  | fuel + 1, x :: l => ((x :: l).take D) :: chunkAux D fuel (l.drop (D - 1))

def chunkRows (D : ℕ) (l : List K) : List (List K) := chunkAux D l.length l

/-- Python `int()` on a rational: truncation toward zero. -/
def truncQ (q : ℚ) : ℤ := Int.tdiv q.num (q.den : ℤ)

def floorQ (q : ℚ) : ℤ := Int.fdiv q.num (q.den : ℤ)

def ceilQ (q : ℚ) : ℤ := -floorQ (-q)

/-- `np.arange(start, stop, -1)`: `⌈start - stop⌉` elements
`start, start-1, start-2, ...` (empty when the count is nonpositive). -/
def arangeNeg1 (start stop : ℚ) : List ℚ :=
  (List.range (ceilQ (start - stop)).toNat).map (fun (t : ℕ) => start - (t : ℚ))

/-- Python list indexing `l[i]`: negative indices count from the end;
out-of-range raises `IndexError` (`none`). -/
def pyGet (l : List α) (i : ℤ) : Option α :=
  if 0 ≤ i then l.get? i.toNat
  else if -i ≤ (l.length : ℤ) then l.get? (l.length - (-i).toNat) else none

/-! ## The notebook's functions -/

/-- `initialize_generators(D, symbols_list)`: pops `2·D²` symbols (row-major,
two `D×D` matrices) from a **shallow copy** (`symbols_copy = copy(symbols_list)`)
of the input; the caller's list is unchanged after the call and is returned
as the second component to make that state visible. -/
def initialize_generators (D : ℤ) (symbols_list : List α) :
    Option (List (List (List α)) × List α) := do
  let g1 ← buildRows D.toNat D.toNat symbols_list
  let g2 ← buildRows D.toNat D.toNat g1.2
  pure ([g1.1, g2.1], symbols_list)

/-- `np.eye(D)` (raises for `D < 0`). -/
def eyeM (n : ℕ) : List (List GQ) :=
  (List.range n).map (fun r => (List.range n).map (fun c => if r = c then GQ.one else GQ.zero))

def npEye (D : ℤ) : Option (List (List GQ)) :=
  if D < 0 then none else some (eyeM D.toNat)

/-- `initialize_eigenstates(eigenstates)`: the columns of the array as
symbolic `(D,1)` column vectors. -/
def initialize_eigenstates (eigenstates : List (List GQ)) : List Vec :=
  (List.range (eigenstates.headD []).length).map (fun c =>
    eigenstates.map (fun row => kOfG (row.getD c GQ.zero)))

/-- `reassemble_mat_from_sols(D, sols)`: merge the solution dicts, sort by
symbol index, and lay the values row-major into a `D×D` matrix;
`sp.Matrix(D, D, sorted_vals)` fails unless `D ≥ 0` and exactly `D·D`
values are present (it checks only the count, not which indices occur). -/
def reassemble_mat_from_sols (D : ℤ) (sols : List (List (ℕ × K))) : Option Mat :=
  let merged := mergeDicts sols
  let sorted_vals := (sortByKey merged).map (fun p => p.2)
  if 0 ≤ D ∧ sorted_vals.length = D.toNat * D.toNat then
    some (chunkRows D.toNat sorted_vals)
  else none

/-- The ladder-term construction in the body of the `for k, m in enumerate(js)`
loop of `form_matrix_irrep_so3`: `m_plus1_state` and `m_minus1_state` start
as the null ket and are overwritten, under the source's guards, by
`sqrt(j(j+1) - m(m±1)) * symbolic_eigenstates[k∓1]`. -/
def ladder_terms (j : ℚ) (jsLen : ℕ) (eigs : List Vec) (nullket : Vec) (k : ℕ) (m : ℚ) :
    Option (Vec × Vec) := do
  -- `if k >= 0 and m + 1 <= j:`
  let mp ←
    if 0 ≤ (k : ℤ) ∧ m + 1 ≤ j then do
      let e ← pyGet eigs ((k : ℤ) - 1)
      pure (smulVec (sqrtQ (j * (j + 1) - m * (m + 1))) e)
    else pure nullket
  -- `if k <= len(js) - 1 and m - 1 >= -j:`
  let mm ←
    if (k : ℤ) ≤ (jsLen : ℤ) - 1 ∧ -j ≤ m - 1 then do
      let e ← pyGet eigs ((k : ℤ) + 1)
      pure (smulVec (sqrtQ (j * (j + 1) - m * (m - 1))) e)
    else pure nullket
  pure (mp, mm)

/-- `sp.solve(prefactor*generators[i]*symbolic_eigenstates[k] + rhs, symbols, dict=True)[0]`:
`symbolic_eigenstates[k]` is the `k`-th standard basis column, so component
`r` of the equation reads `prefactor·G[r][k] + rhs[r] = 0`, and the unique
solution maps the column-`k` symbols `G[r][k] ↦ -rhs[r]/prefactor`. -/
def solveColumn (prefactor : GQ) (G : List (List ℕ)) (k : ℕ) (rhs : Vec) : List (ℕ × K) :=
  (List.range G.length).map (fun r =>
    ((G.getD r []).getD k 0, mulK (kOfG (GQ.neg (GQ.inv prefactor))) (rhs.getD r kZero)))

/-- One pass of the outer `for (i, prefactor) in enumerate([2.0, 2.0j])` loop:
iterate `for k, m in enumerate(js)`, build the ladder terms, form
`rhs = -m_plus1_state ∓ m_minus1_state` (`-` for prefactor `2`, `+` for `2i`),
and solve each column equation.  `symbolic_eigenstates[k]` is indexed inside
the solve expression, so an out-of-range `k` aborts (`IndexError`). -/
def buildSols (j : ℚ) (js : List ℚ) (eigs : List Vec) (nullket : Vec)
    (prefactor : GQ) (plusSign : Bool) (G : List (List ℕ)) :
    Option (List (List (ℕ × K))) :=
  (List.range js.length).mapM (fun k => do
    let m := js.getD k 0
    let t ← ladder_terms j js.length eigs nullket k m
    let rhs := if plusSign then addVec (negVec t.1) t.2 else addVec (negVec t.1) (negVec t.2)
    let _ ← pyGet eigs (k : ℤ)
    pure (solveColumn prefactor G k rhs))

/-- `J.applyfunc(sp.nsimplify)`: rewrites float entries to exact form.  The
embedding computes exactly from the start, so on `K` it is the identity. -/
def nsimplifyK (x : K) : K := x

/-- `form_matrix_irrep_so3(j)`: the orchestrator, returning `[J1, J2, J3]`
(`none` models an uncaught Python exception anywhere in the call). -/
def form_matrix_irrep_so3 (j : ℚ) : Option (List Mat) := do
  let D : ℤ := truncQ (2 * j + 1)
  let js : List ℚ := arangeNeg1 j (-j - 1)
  let J3 : Mat := diagM (js.map kOfQ)
  let eigenstates ← npEye D
  let num_vars : ℕ := D.toNat ^ 2 * 2
  let symbols_list : List ℕ := List.range num_vars
  let gens ← initialize_generators D symbols_list
  let symbolic_eigenstates := initialize_eigenstates eigenstates
  let null_ket : Vec := zeroVec D.toNat
  let sols1 ← buildSols j js symbolic_eigenstates null_ket ⟨2, 0⟩ false (gens.1.getD 0 [])
  let J1 ← reassemble_mat_from_sols D sols1
  let sols2 ← buildSols j js symbolic_eigenstates null_ket ⟨0, 2⟩ true (gens.1.getD 1 [])
  let J2 ← reassemble_mat_from_sols D sols2
  pure [J1.map (fun row => row.map nsimplifyK), J2.map (fun row => row.map nsimplifyK), J3]

/-! ## Helper lemmas about the Python-level helpers -/

theorem popN_eq_some (n : ℕ) (l : List α) (h : n ≤ l.length) :
    popN n l = some (l.take n, l.drop n) := by
  induction n generalizing l with
  | zero => simp [popN]
  | succ n ih =>
    cases l with
    | nil => simp at h
    | cons a l =>
      simp only [List.length_cons, Nat.succ_le_succ_iff] at h
      simp [popN, ih l h]

theorem popN_eq_none (n : ℕ) (l : List α) (h : l.length < n) : popN n l = none := by
  induction n generalizing l with
  | zero => simp at h
  | succ n ih =>
    cases l with
    | nil => simp [popN]
    | cons a l =>
      simp only [List.length_cons, Nat.succ_lt_succ_iff] at h
      simp [popN, ih l h]

theorem take_add_split (m n : ℕ) (l : List α) :
    l.take (m + n) = l.take m ++ (l.drop m).take n := by
  induction m generalizing l with
  | zero => simp
  | succ m ih =>
    cases l with
    | nil => simp
    | cons a l => simp [Nat.succ_add, ih]

theorem buildRows_eq_some (D r : ℕ) (l : List α) (h : D * r ≤ l.length) :
    ∃ rows, buildRows D r l = some (rows, l.drop (D * r)) ∧
      rows.flatten = l.take (D * r) := by
  induction r generalizing l with
  | zero => simp [buildRows]
  | succ r ih =>
    rw [Nat.mul_succ] at h
    have hD : D ≤ l.length := by omega
    have hrest : D * r ≤ (l.drop D).length := by
      rw [List.length_drop]; omega
    obtain ⟨rows, hrows, hflat⟩ := ih (l.drop D) hrest
    refine ⟨l.take D :: rows, ?_, ?_⟩
    · simp only [buildRows, popN_eq_some D l hD, Option.bind_eq_bind, Option.some_bind,
        hrows, List.drop_drop]
      have : D + D * r = D * (r + 1) := by ring
      rw [this]
      rfl
    · have : D * (r + 1) = D + D * r := by ring
      rw [List.flatten_cons, hflat, this, take_add_split]

theorem buildRows_eq_none (D r : ℕ) (l : List α) (h : l.length < D * r) :
    buildRows D r l = none := by
  induction r generalizing l with
  | zero => simp at h
  | succ r ih =>
    rw [Nat.mul_succ] at h
    by_cases hD : D ≤ l.length
    · have hrest : (l.drop D).length < D * r := by
        rw [List.length_drop]; omega
      simp [buildRows, popN_eq_some D l hD, ih (l.drop D) hrest]
    · simp [buildRows, popN_eq_none D l (by omega)]

theorem insertByKey_length (p : ℕ × K) (l : List (ℕ × K)) :
    (insertByKey p l).length = l.length + 1 := by
  induction l with
  | nil => rfl
  | cons q rest ih =>
    unfold insertByKey
    split
    · simp
    · simp [ih]

theorem foldl_insertByKey_length (l : List (ℕ × K)) :
    ∀ acc, (l.foldl (fun acc p => insertByKey p acc) acc).length = acc.length + l.length := by
  induction l with
  | nil => intro acc; simp
  | cons p rest ih =>
    intro acc
    simp only [List.foldl_cons, ih, insertByKey_length, List.length_cons]
    omega

theorem sortByKey_length (l : List (ℕ × K)) : (sortByKey l).length = l.length := by
  unfold sortByKey
  simpa using foldl_insertByKey_length l []

/-! ## Helper lemmas for the ladder-term boundary analysis -/

theorem GQ.one_ne_zero_gq : GQ.one ≠ GQ.zero := by
  simp [GQ.one, GQ.zero]

/-- The `i`-th column of `np.eye(D)` seen through `initialize_eigenstates`:
the `i`-th standard basis ket. -/
def basisVec (D i : ℕ) : Vec :=
  (List.range D).map (fun r => if r = i then kOfG GQ.one else kZero)

theorem getD_map_range (D c : ℕ) (f : ℕ → α) (d : α) (hc : c < D) :
    ((List.range D).map f).getD c d = f c := by
  simp [List.getD_eq_getElem?_getD, List.getElem?_map, List.getElem?_range hc]

theorem initialize_eigenstates_eyeM (D : ℕ) :
    initialize_eigenstates (eyeM D) = (List.range D).map (basisVec D) := by
  unfold initialize_eigenstates
  have hlen : ((eyeM D).headD []).length = D := by
    cases D with
    | zero => rfl
    | succ m => simp [eyeM, List.range_succ_eq_map]
  rw [hlen]
  apply List.map_congr_left
  intro c hc
  rw [List.mem_range] at hc
  unfold eyeM basisVec
  rw [List.map_map]
  apply List.map_congr_left
  intro r hr
  rw [List.mem_range] at hr
  simp only [Function.comp_apply]
  rw [getD_map_range D c _ _ hc]
  by_cases h : r = c
  · simp [h]
  · simp [h, kOfG, kZero, GQ.zero]

theorem ceilQ_natCast (n : ℕ) : ceilQ (n : ℚ) = n := by
  unfold ceilQ floorQ
  have h1 : (-(n : ℚ)).num = -(n : ℤ) := by simp
  have h2 : ((-(n : ℚ)).den : ℤ) = 1 := by simp
  rw [h1, h2, Int.fdiv_one]
  simp

theorem arangeNeg1_get (j : ℚ) (D k : ℕ) (hD : (D : ℚ) = 2 * j + 1) (hk : k < D) :
    (arangeNeg1 j (-j - 1)).get? k = some (j - (k : ℚ)) := by
  unfold arangeNeg1
  have harg : j - (-j - 1) = (D : ℚ) := by rw [hD]; ring
  rw [harg, ceilQ_natCast, Int.toNat_ofNat]
  rw [List.get?_map, List.get?_range hk]
  rfl

theorem arangeNeg1_length (j : ℚ) (D : ℕ) (hD : (D : ℚ) = 2 * j + 1) :
    (arangeNeg1 j (-j - 1)).length = D := by
  unfold arangeNeg1
  have harg : j - (-j - 1) = (D : ℚ) := by rw [hD]; ring
  rw [harg, ceilQ_natCast, Int.toNat_ofNat]
  simp

theorem extractSq_fst_pos (s : ℕ) : 0 < (extractSq s).1 := by
  unfold extractSq
  cases hf : ((List.range (s.sqrt + 1)).reverse).find? (fun k => k != 0 && s % (k * k) == 0) with
  | none => simp [hf]
  | some k =>
    have hp := List.find?_some hf
    simp only [Bool.and_eq_true, bne_iff_ne, ne_eq] at hp
    simp only [hf, Option.getD_some]
    omega

theorem sqrtQ_pos_form (q : ℚ) (hq : 0 < q) :
    ∃ r c, sqrtQ q = [(r, ⟨c, 0⟩)] ∧ c ≠ 0 := by
  unfold sqrtQ
  rw [if_neg (ne_of_gt hq), if_pos hq]
  refine ⟨_, _, rfl, ?_⟩
  have hk := extractSq_fst_pos (q.num.toNat * q.den)
  have hpos : (0 : ℚ) < ((extractSq (q.num.toNat * q.den)).1 : ℚ) / (q.den : ℚ) := by
    apply div_pos
    · exact_mod_cast hk
    · exact_mod_cast q.den_pos
  exact ne_of_gt hpos

theorem mulK_single_kOne (r : ℕ) (a : GQ) (ha : a ≠ GQ.zero) :
    mulK [(r, a)] (kOfG GQ.one) = [(r, a)] := by
  rw [kOfG, if_neg GQ.one_ne_zero_gq]
  show addK (mulTermK r a 1 GQ.one) [] = [(r, a)]
  have hmul : GQ.mul (GQ.mul a GQ.one) (GQ.ofQ ((Nat.gcd r 1 : ℕ) : ℚ)) = a := by
    rw [Nat.gcd_one_right]
    cases a with
    | mk x y => simp [GQ.mul, GQ.one, GQ.ofQ]
  have hterm : mulTermK r a 1 GQ.one = [(r, a)] := by
    unfold mulTermK
    rw [hmul, if_neg ha, Nat.gcd_one_right]
    simp
  rw [hterm]
  simp [addK, insTerm]

theorem pyGet_nonneg (l : List α) (i : ℤ) (h : 0 ≤ i) : pyGet l i = l.get? i.toNat := by
  simp [pyGet, h]

theorem get_map_basis (D i : ℕ) (hi : i < D) :
    ((List.range D).map (basisVec D)).get? i = some (basisVec D i) := by
  rw [List.get?_map, List.get?_range hi]
  rfl

theorem smul_basis_entry (D i : ℕ) (x : K) (hi : i < D) :
    (smulVec x (basisVec D i)).get? i = some (mulK x (kOfG GQ.one)) := by
  unfold smulVec basisVec
  rw [List.map_map, List.get?_map, List.get?_range hi]
  simp

theorem zeroVec_entry (D i : ℕ) (hi : i < D) : (zeroVec D).get? i = some kZero := by
  unfold zeroVec
  rw [List.get?_eq_getElem?, List.getElem?_replicate, if_pos hi]

theorem smul_basis_ne_zeroVec (D i : ℕ) (q : ℚ) (hi : i < D) (hq : 0 < q) :
    smulVec (sqrtQ q) (basisVec D i) ≠ zeroVec D := by
  obtain ⟨r, c, hform, hc⟩ := sqrtQ_pos_form q hq
  intro h
  have h1 : (smulVec (sqrtQ q) (basisVec D i)).get? i = (zeroVec D).get? i := by rw [h]
  rw [smul_basis_entry D i _ hi, zeroVec_entry D i hi, hform] at h1
  have hne : (⟨c, 0⟩ : GQ) ≠ GQ.zero := by
    simp only [GQ.zero, ne_eq, GQ.mk.injEq, not_and]
    intro hcc
    exact absurd hcc hc
  rw [mulK_single_kOne r ⟨c, 0⟩ hne] at h1
  simp [kZero] at h1


/-- C6: in the column equation for basis index `k` (any generator index),
the raising term of `rhs_k` is the zero vector exactly when `k - 1 < 0`
(equivalently `m_k = j`) and the lowering term is the zero vector exactly
when `k + 1 ≥ D` (equivalently `m_k = -j`); for all other `k` both terms
are present (nonzero, since their ladder coefficients are nonzero). -/
theorem C6_ladder_term_boundary (j : ℚ) (D k : ℕ) (m : ℚ)
    (hD : (D : ℚ) = 2 * j + 1) (hk : k < D)
    (hm : (arangeNeg1 j (-j - 1)).get? k = some m) :
    ∃ mp mm,
      ladder_terms j (arangeNeg1 j (-j - 1)).length
          (initialize_eigenstates (eyeM D)) (zeroVec D) k m = some (mp, mm) ∧
      ((mp = zeroVec D ↔ k = 0) ∧ (k = 0 ↔ m = j)) ∧
      ((mm = zeroVec D ↔ D ≤ k + 1) ∧ (D ≤ k + 1 ↔ m = -j)) := by
  have hlen := arangeNeg1_length j D hD
  have hget := arangeNeg1_get j D k hD hk
  rw [hget] at hm
  have hm' : m = j - (k : ℚ) := (Option.some.inj hm).symm
  subst hm'
  have h2j : 2 * j = (D : ℚ) - 1 := by linarith
  have hkD : (k : ℚ) < (D : ℚ) := by exact_mod_cast hk
  rw [hlen, initialize_eigenstates_eyeM]
  unfold ladder_terms
  rcases Nat.eq_zero_or_pos k with hk0 | hkpos
  · subst hk0
    have hg1 : ¬(0 ≤ ((0 : ℕ) : ℤ) ∧ j - ((0 : ℕ) : ℚ) + 1 ≤ j) := by
      push_cast
      intro h
      linarith [h.2]
    rw [if_neg hg1]
    simp only [Option.pure_def, Option.bind_eq_bind, Option.some_bind]
    rcases Nat.lt_or_ge (0 + 1) D with hD2 | hD2
    · have hDq : (2 : ℚ) ≤ (D : ℚ) := by exact_mod_cast hD2
      have hg2 : ((0 : ℕ) : ℤ) ≤ (D : ℤ) - 1 ∧ -j ≤ j - ((0 : ℕ) : ℚ) - 1 := by
        constructor
        · omega
        · push_cast
          linarith
      rw [if_pos hg2]
      rw [pyGet_nonneg _ _ (by omega)]
      have ht : (((0 : ℕ) : ℤ) + 1).toNat = 1 := by omega
      rw [ht, get_map_basis D 1 hD2]
      simp only [Option.pure_def, Option.bind_eq_bind, Option.some_bind]
      have hrad : 0 < j * (j + 1) - (j - ((0 : ℕ) : ℚ)) * (j - ((0 : ℕ) : ℚ) - 1) := by
        push_cast
        nlinarith
      refine ⟨zeroVec D, _, rfl, ?_, ?_⟩
      · simp
      · constructor
        · constructor
          · intro hz
            exact absurd hz (smul_basis_ne_zeroVec D 1 _ hD2 hrad)
          · omega
        · constructor
          · omega
          · intro hj
            push_cast at hj
            have hq1 : (D : ℚ) = 1 := by linarith
            have : D = 1 := by exact_mod_cast hq1
            omega
    · have hD1 : D = 1 := by omega
      have hj0 : j = 0 := by
        rw [hD1] at h2j
        push_cast at h2j
        linarith
      have hg2 : ¬(((0 : ℕ) : ℤ) ≤ (D : ℤ) - 1 ∧ -j ≤ j - ((0 : ℕ) : ℚ) - 1) := by
        intro h
        have h2 := h.2
        push_cast at h2
        rw [hj0] at h2
        linarith
      rw [if_neg hg2]
      refine ⟨zeroVec D, zeroVec D, rfl, ?_, ?_⟩
      · simp [hj0]
      · constructor
        · simp [hD1]
        · constructor
          · intro _
            rw [hj0]
            push_cast
            ring
          · omega
  · have hg1 : 0 ≤ ((k : ℕ) : ℤ) ∧ j - (k : ℚ) + 1 ≤ j := by
      constructor
      · omega
      · have : (1 : ℚ) ≤ (k : ℚ) := by exact_mod_cast hkpos
        linarith
    rw [if_pos hg1]
    rw [pyGet_nonneg _ _ (by omega)]
    have ht : (((k : ℕ) : ℤ) - 1).toNat = k - 1 := by omega
    rw [ht, get_map_basis D (k - 1) (by omega)]
    simp only [Option.pure_def, Option.bind_eq_bind, Option.some_bind]
    have hrad1 : 0 < j * (j + 1) - (j - (k : ℚ)) * (j - (k : ℚ) + 1) := by
      have hexp : j * (j + 1) - (j - (k : ℚ)) * (j - (k : ℚ) + 1)
          = (k : ℚ) * ((D : ℚ) - (k : ℚ)) := by
        rw [show ((D : ℚ) - (k : ℚ)) = 2 * j - (k : ℚ) + 1 by linarith]
        ring
      rw [hexp]
      have h1k : (1 : ℚ) ≤ (k : ℚ) := by exact_mod_cast hkpos
      nlinarith
    have hmp_ne := smul_basis_ne_zeroVec D (k - 1) _ (by omega) hrad1
    rcases Nat.lt_or_ge (k + 1) D with hklt | hkge
    · have hkDq : ((k : ℚ) + 2) ≤ (D : ℚ) := by exact_mod_cast hklt
      have hg2 : ((k : ℕ) : ℤ) ≤ (D : ℤ) - 1 ∧ -j ≤ j - (k : ℚ) - 1 := by
        constructor
        · omega
        · linarith
      rw [if_pos hg2]
      rw [pyGet_nonneg _ _ (by omega)]
      have ht2 : (((k : ℕ) : ℤ) + 1).toNat = k + 1 := by omega
      rw [ht2, get_map_basis D (k + 1) hklt]
      simp only [Option.pure_def, Option.bind_eq_bind, Option.some_bind]
      have hrad2 : 0 < j * (j + 1) - (j - (k : ℚ)) * (j - (k : ℚ) - 1) := by
        have hexp : j * (j + 1) - (j - (k : ℚ)) * (j - (k : ℚ) - 1)
            = ((D : ℚ) - 1 - (k : ℚ)) * ((k : ℚ) + 1) := by
          rw [show ((D : ℚ) - 1 - (k : ℚ)) = 2 * j - (k : ℚ) by linarith]
          ring
        rw [hexp]
        nlinarith
      have hmm_ne := smul_basis_ne_zeroVec D (k + 1) _ hklt hrad2
      refine ⟨_, _, rfl, ?_, ?_⟩
      · constructor
        · constructor
          · intro hz
            exact absurd hz hmp_ne
          · omega
        · constructor
          · omega
          · intro hj
            have hq0 : (k : ℚ) = 0 := by linarith
            have : k = 0 := by exact_mod_cast hq0
            omega
      · constructor
        · constructor
          · intro hz
            exact absurd hz hmm_ne
          · omega
        · constructor
          · omega
          · intro hj
            have hq1 : (k : ℚ) + 1 = (D : ℚ) := by linarith
            have : k + 1 = D := by exact_mod_cast hq1
            omega
    · have hkeq : k = D - 1 := by omega
      have hkq : (k : ℚ) = (D : ℚ) - 1 := by
        have : ((D - 1 : ℕ) : ℚ) = (D : ℚ) - 1 := by
          have : 1 ≤ D := by omega
          push_cast [this]
          ring
        rw [hkeq, this]
      have hg2 : ¬(((k : ℕ) : ℤ) ≤ (D : ℤ) - 1 ∧ -j ≤ j - (k : ℚ) - 1) := by
        intro h
        have h2 := h.2
        linarith
      rw [if_neg hg2]
      refine ⟨_, zeroVec D, rfl, ?_, ?_⟩
      · constructor
        · constructor
          · intro hz
            exact absurd hz hmp_ne
          · omega
        · constructor
          · omega
          · intro hj
            have hq0 : (k : ℚ) = 0 := by linarith
            have : k = 0 := by exact_mod_cast hq0
            omega
      · constructor
        · constructor
          · intro _
            omega
          · intro _
            rfl
        · constructor
          · intro _
            linarith
          · omega

/-! ## Claim checkers and claim theorems -/

/-- The so(3) commutation relations `[J1,J2] = i·J3`, `[J2,J3] = i·J1`,
`[J3,J1] = i·J2` on a result of `form_matrix_irrep_so3`. -/
def commCheck (r : Option (List Mat)) : Bool :=
  match r with
  | some [a, b, c] =>
      decide (commutatorM a b = matSmul kI c) &&
      decide (commutatorM b c = matSmul kI a) &&
      decide (commutatorM c a = matSmul kI b)
  | _ => false

def isSquareOf (A : Mat) (D : ℕ) : Bool :=
  (A.length == D) && A.all (fun row => row.length == D)

/-- All three returned matrices are `D×D` with `D = 2j+1`, and the third is
exactly `diag(j, j-1, ..., -j)`. -/
def dimDiagCheck (j : ℚ) (D : ℕ) : Bool :=
  match form_matrix_irrep_so3 j with
  | some [a, b, c] =>
      decide ((D : ℚ) = 2 * j + 1) &&
      isSquareOf a D && isSquareOf b D && isSquareOf c D &&
      decide (c = diagM ((List.range D).map (fun (t : ℕ) => kOfQ (j - (t : ℚ)))))
  | _ => false

/-- `J1 = J1†` and `J2 = J2†` on a result of `form_matrix_irrep_so3`. -/
def hermCheck (r : Option (List Mat)) : Bool :=
  match r with
  | some [a, b, _] => decide (a = conjTransposeM a) && decide (b = conjTransposeM b)
  | _ => false

/-- C1: for every tested spin `j ∈ {0, 1/2, 1, 3/2, 2}` the matrices
`(J1, J2, J3)` returned by `form_matrix_irrep_so3 j` satisfy the commutation
relations exactly: `[J1,J2] = i·J3`, `[J2,J3] = i·J1`, `[J3,J1] = i·J2`. -/
theorem C1_commutation_relations :
    commCheck (form_matrix_irrep_so3 0) = true ∧
    commCheck (form_matrix_irrep_so3 (1/2)) = true ∧
    commCheck (form_matrix_irrep_so3 1) = true ∧
    commCheck (form_matrix_irrep_so3 (3/2)) = true ∧
    commCheck (form_matrix_irrep_so3 2) = true := by
  refine ⟨?_, ?_, ?_, ?_, ?_⟩ <;> with_unfolding_all decide

/-- C2: for `j = 1/2`, `form_matrix_irrep_so3` returns exactly
`J1 = [[0, 1/2],[1/2, 0]]`, `J2 = [[0, -i/2],[i/2, 0]]`,
`J3 = [[1/2, 0],[0, -1/2]]`, in that order. -/
theorem C2_spin_half_matrices :
    form_matrix_irrep_so3 (1/2) =
      some [[[kOfQ 0, kOfQ (1/2)], [kOfQ (1/2), kOfQ 0]],
            [[kOfQ 0, mulK kI (kOfQ (-1/2))], [mulK kI (kOfQ (1/2)), kOfQ 0]],
            [[kOfQ (1/2), kOfQ 0], [kOfQ 0, kOfQ (-1/2)]]] := by
  with_unfolding_all decide

/-- C3 counterexample: the invalid input `j = -1/2` (negative, hence not a
non-negative integer or half-integer) is not rejected: the entry point
returns a result, namely three empty (0×0) matrices, contradicting the
claim that every invalid input produces no result. -/
theorem C3_counterexample_no_rejection :
    form_matrix_irrep_so3 (-1/2) = some [[], [], []] := by
  with_unfolding_all decide

/-- C3 amended: the entry point performs no input validation.  An invalid
`j` is not rejected up front: `j = -1/2` returns a normal result (three 0×0
matrices), while `j = 2/3` fails only incidentally (an index error inside
the column-solve loop, after `J3` and the symbolic generators are built),
modelled as `none`. -/
theorem C3_amended_no_validation :
    form_matrix_irrep_so3 (-1/2) = some [[], [], []] ∧
    form_matrix_irrep_so3 (2/3) = none :=
  ⟨by with_unfolding_all decide, by with_unfolding_all decide⟩

/-- C4: for every tested spin `j ∈ {0, 1/2, 1, 3/2, 2}` the returned
matrices are square of dimension `D = 2j+1` and `J3 = diag(j, j-1, ..., -j)`
exactly. -/
theorem C4_dimension_and_diagonal :
    dimDiagCheck 0 1 = true ∧
    dimDiagCheck (1/2) 2 = true ∧
    dimDiagCheck 1 3 = true ∧
    dimDiagCheck (3/2) 4 = true ∧
    dimDiagCheck 2 5 = true := by
  refine ⟨?_, ?_, ?_, ?_, ?_⟩ <;> with_unfolding_all decide

/-- C7: for every tested spin `j ∈ {0, 1/2, 1, 3/2, 2}` the returned `J1`
and `J2` equal their conjugate transposes exactly. -/
theorem C7_hermiticity :
    hermCheck (form_matrix_irrep_so3 0) = true ∧
    hermCheck (form_matrix_irrep_so3 (1/2)) = true ∧
    hermCheck (form_matrix_irrep_so3 1) = true ∧
    hermCheck (form_matrix_irrep_so3 (3/2)) = true ∧
    hermCheck (form_matrix_irrep_so3 2) = true := by
  refine ⟨?_, ?_, ?_, ?_, ?_⟩ <;> with_unfolding_all decide

/-- C10: for `j = 0` the entry point returns three `1×1` zero matrices. -/
theorem C10_spin_zero :
    form_matrix_irrep_so3 0 = some [[[kOfQ 0]], [[kOfQ 0]], [[kOfQ 0]]] := by
  with_unfolding_all decide

/-- C5 counterexample: `initialize_generators` pops from a shallow copy, so
the caller's symbol sequence is *not* modified: with `D = 1` and symbols
`[x0, x1]`, the post-call sequence (second component) is still `[0, 1]`,
not the empty list the claim requires (the first `2·D² = 2` symbols were
not removed from it). -/
theorem C5_counterexample_not_destructive :
    initialize_generators 1 [0, 1] = some ([[[0]], [[1]]], [0, 1]) := by
  with_unfolding_all decide

/-- C5 amended: `initialize_generators` consumes symbols from a shallow
copy of the input sequence; the caller's sequence is unchanged after the
call, and each of the first `2·D²` symbols is used exactly once across the
two returned `D×D` matrices (their row-major concatenation is exactly that
prefix). -/
theorem C5_amended_copy_semantics (D : ℕ) (syms : List ℕ)
    (h : 2 * D ^ 2 ≤ syms.length) :
    ∃ g1 g2, initialize_generators (D : ℤ) syms = some ([g1, g2], syms) ∧
      g1.flatten ++ g2.flatten = syms.take (2 * D ^ 2) := by
  unfold initialize_generators
  rw [Int.toNat_natCast]
  have hsq : D ^ 2 = D * D := by ring
  have h1 : D * D ≤ syms.length := by omega
  obtain ⟨g1, hg1, hflat1⟩ := buildRows_eq_some D D syms h1
  have h2 : D * D ≤ (syms.drop (D * D)).length := by
    rw [List.length_drop]
    omega
  obtain ⟨g2, hg2, hflat2⟩ := buildRows_eq_some D D _ h2
  refine ⟨g1, g2, ?_, ?_⟩
  · simp only [hg1, Option.pure_def, Option.bind_eq_bind, Option.some_bind, hg2]
  · rw [hflat1, hflat2, show 2 * D ^ 2 = D * D + D * D by ring, take_add_split]

theorem C5_amended_copy_semantics_witness :
    2 * 1 ^ 2 ≤ ([0, 1, 2] : List ℕ).length ∧
    (∃ g1 g2, initialize_generators ((1 : ℕ) : ℤ) [0, 1, 2] = some ([g1, g2], [0, 1, 2]) ∧
      g1.flatten ++ g2.flatten = ([0, 1, 2] : List ℕ).take (2 * 1 ^ 2)) :=
  ⟨by decide, C5_amended_copy_semantics 1 [0, 1, 2] (by decide)⟩

/-- C8: a call to `initialize_generators` with dimension `D` and fewer than
`2·D²` symbols fails (the pops exhaust the sequence: `IndexError`), so no
result is produced. -/
theorem C8_insufficient_symbols (D : ℕ) (syms : List ℕ)
    (h : syms.length < 2 * D ^ 2) :
    initialize_generators (D : ℤ) syms = none := by
  unfold initialize_generators
  rw [Int.toNat_natCast]
  have hsq : D ^ 2 = D * D := by ring
  by_cases h1 : syms.length < D * D
  · rw [buildRows_eq_none D D syms h1]
    rfl
  · push_neg at h1
    obtain ⟨g1, hg1, _⟩ := buildRows_eq_some D D syms h1
    have h2 : (syms.drop (D * D)).length < D * D := by
      rw [List.length_drop]
      omega
    simp only [hg1, Option.pure_def, Option.bind_eq_bind, Option.some_bind,
      buildRows_eq_none D D _ h2]
    rfl

theorem C8_insufficient_symbols_witness :
    ([0] : List ℕ).length < 2 * 1 ^ 2 ∧
    initialize_generators ((1 : ℕ) : ℤ) [0] = none :=
  ⟨by decide, C8_insufficient_symbols 1 [0] (by decide)⟩

/-- C9 counterexample: with `D = 1` and the single solution mapping
`{x5 ↦ 1}`, the merged mapping has exactly `D² = 1` entry but its symbol
index `5` does not lie in the contiguous range `0..0`; the claim requires a
fatal error, yet the call returns the matrix `[[1]]`. -/
theorem C9_counterexample_gap_accepted :
    reassemble_mat_from_sols 1 [[(5, kOfQ 1)]] = some [[kOfQ 1]] := by
  with_unfolding_all decide

/-- C9 amended: `reassemble_mat_from_sols` checks only the *count* of the
merged mapping: the call fails exactly when the merged mapping does not
contain `D²` entries.  Indices need not be contiguous (values are placed in
index-sorted order whatever the indices are), and a symbol occurring in
several mappings is silently merged (last value wins) rather than being an
error. -/
theorem C9_amended_count_only (D : ℕ) (sols : List (List (ℕ × K))) :
    reassemble_mat_from_sols (D : ℤ) sols = none ↔
      (mergeDicts sols).length ≠ D * D := by
  unfold reassemble_mat_from_sols
  rw [Int.toNat_natCast]
  have hlen : ((sortByKey (mergeDicts sols)).map (fun p => p.2)).length
      = (mergeDicts sols).length := by
    rw [List.length_map, sortByKey_length]
  by_cases hc : (mergeDicts sols).length = D * D
  · rw [if_pos ⟨Int.natCast_nonneg D, by rw [hlen, hc]⟩]
    simp [hc]
  · rw [if_neg ?_]
    · simp [hc]
    · intro hand
      exact hc (hlen ▸ hand.2)

theorem C6_ladder_term_boundary_witness :
    ((4 : ℕ) : ℚ) = 2 * (3/2) + 1 ∧ (1 : ℕ) < 4 ∧
    (arangeNeg1 (3/2) (-(3/2) - 1)).get? 1 = some (1/2) ∧
    (∃ mp mm,
      ladder_terms (3/2) (arangeNeg1 (3/2) (-(3/2) - 1)).length
          (initialize_eigenstates (eyeM 4)) (zeroVec 4) 1 (1/2) = some (mp, mm) ∧
      ((mp = zeroVec 4 ↔ (1 : ℕ) = 0) ∧ ((1 : ℕ) = 0 ↔ (1/2 : ℚ) = 3/2)) ∧
      ((mm = zeroVec 4 ↔ 4 ≤ 1 + 1) ∧ (4 ≤ 1 + 1 ↔ (1/2 : ℚ) = -(3/2)))) :=
  ⟨by with_unfolding_all decide, by decide, by with_unfolding_all decide,
   C6_ladder_term_boundary (3/2) 4 1 (1/2) (by with_unfolding_all decide) (by decide)
     (by with_unfolding_all decide)⟩
